/-
  Verification of the tinytaxonomy clustering pipeline.

  Shallow embedding of the core pipeline of the repository:
    - src/lib/utils/math.ts        (TF-IDF vectors, cosine distance matrix)
    - src/lib/utils/nlp.ts         (textRank)
    - src/lib/utils/nlpEnhanced.ts (token weights, dendrogram cutoff, gaps)
    - src/lib/workers/cluster.worker.impl.ts
                                   (worker message flow, node-id counter,
                                    convertToD3, convertToD3WithCutoff)

  Numbers that the source manipulates as JS floats are embedded as ℚ where the
  code is exact rational arithmetic (weights, textRank scores, heights) and as
  ℝ where square roots and logarithms occur (cosine similarity, TF-IDF).
  External libraries (wink-nlp, compromise, ml-hclust) are not part of the
  repository; their outputs enter the embedding as explicit parameters
  (token lists, term lists, cluster trees).
-/
import Mathlib

namespace TinyTaxonomy

/-! ## Generic helpers -/

/-- Invariant preservation along a left fold. -/
theorem foldl_inv {α β : Type _} (P : α → Prop) (f : α → β → α) :
    ∀ (l : List β) (init : α), P init → (∀ a b, b ∈ l → P a → P (f a b)) →
      P (l.foldl f init) := by
  intro l
  induction l with
  | nil => intro init h0 _; simpa using h0
  | cons x xs ih =>
      intro init h0 hstep
      simp only [List.foldl_cons]
      exact ih (f init x) (hstep init x (by simp) h0)
        (fun a b hb ha => hstep a b (List.mem_cons_of_mem _ hb) ha)

/-- `getD` after `set`: the updated entry is read back when in bounds. -/
theorem getD_set {α : Type _} (v d : α) :
    ∀ (l : List α) (i j : Nat),
      (l.set i v).getD j d = if i = j ∧ i < l.length then v else l.getD j d := by
  intro l
  induction l with
  | nil => intro i j; simp
  | cons x xs ih =>
      intro i j
      cases i with
      | zero =>
          cases j with
          | zero => simp
          | succ j => simp
      | succ i =>
          cases j with
          | zero => simp
          | succ j =>
              simp only [List.set, List.getD_cons_succ, List.length_cons]
              rw [ih i j]
              by_cases h : i = j ∧ i < xs.length
              · rw [if_pos h, if_pos ⟨by omega, by omega⟩]
              · rw [if_neg h, if_neg (by omega)]

/-! ## Enhanced tokens and glue words (src/lib/utils/nlpEnhanced.ts) -/

/-- A token of the enhanced pipeline (interface `EnhancedToken`).  The source
    field `lemma` is spelled `lemm` here because `lemma` is a Lean keyword. -/
structure EnhancedToken where
  text : String
  lemm : String
  pos : String
  isNounPhrase : Bool
  weight : ℚ
deriving DecidableEq, Repr

/-- The fixed glue-word set `GLUE_WORDS` (nlpEnhanced.ts lines 65-71). -/
def GLUE_WORDS : List String :=
  ["process", "level", "relationship", "structure", "element",
   "system", "type", "form", "part", "way", "thing", "aspect",
   "area", "point", "case", "example", "result", "effect",
   "use", "work", "make", "take", "give", "get", "set",
   "number", "amount", "kind", "sort", "group", "series"]

/-- One term as produced by compromise's `doc.terms().json()`; the compromise
    library is external to the repository, so terms are an input of the
    embedding. -/
structure Term where
  text : String
  tags : List String
  normal : Option String
deriving DecidableEq, Repr

/-- POS determination of `tokenizeWithLemmas` (nlpEnhanced.ts lines 117-126). -/
def posOfTags (tags : List String) : String :=
  if "Noun" ∈ tags ∨ "Singular" ∈ tags ∨ "Plural" ∈ tags then "NOUN"
  else if "Verb" ∈ tags ∨ "PastTense" ∈ tags ∨ "Gerund" ∈ tags then "VERB"
  else if "Adjective" ∈ tags then "ADJ"
  else if "Adverb" ∈ tags then "ADV"
  else "OTHER"

/-- `tokenizeWithLemmas` (nlpEnhanced.ts lines 100-162).  The compromise
    calls `termDoc.verbs().toInfinitive().text()` and
    `termDoc.nouns().toSingular().text()` are external; they enter as the
    oracle functions `infOf` and `singOf` (returning `""` when compromise
    returns no text, matching the falsy check in the source).  Note that the
    glue-word penalty applied here is the literal constant `0.5`; the
    function takes no penalty parameter. -/
def tokenizeWithLemmas (infOf singOf : String → String)
    (terms : List Term) : List EnhancedToken :=
  terms.foldl (fun acc term =>
    if term.text = "" ∨ term.text.trim.length < 2 then acc
    else if "Punctuation" ∈ term.tags ∨ "Cardinal" ∈ term.tags then acc
    else
      let text := term.text.trim
      let pos := posOfTags term.tags
      let lem0 := match term.normal with
        | some n => if n ≠ "" then n else text.toLower
        | none => text.toLower
      let lem :=
        if pos = "VERB" then
          (if infOf text ≠ "" then (infOf text).toLower else lem0)
        else if pos = "NOUN" then
          (if singOf text ≠ "" then (singOf text).toLower else lem0)
        else lem0
      let weight : ℚ := if lem ∈ GLUE_WORDS then 1 * (1/2) else 1
      acc ++ [{ text := text, lemm := lem, pos := pos,
                isNounPhrase := false, weight := weight }]) []

/-- Update of one token inside `markNounPhraseTokens`: set the noun-phrase
    flag and multiply the weight by the boost factor. -/
def boostToken (boost : ℚ) (t : EnhancedToken) : EnhancedToken :=
  { t with isNounPhrase := true, weight := t.weight * boost }

/-- Apply `boostToken` to the index range `[i, i+len)` of the token list
    (the inner `for (let j = i; j < i + len; j++)` loop). -/
def boostRange (boost : ℚ) (tokens : List EnhancedToken) (i len : Nat) :
    List EnhancedToken :=
  (List.range' i len).foldl
    (fun ts j => match ts.get? j with
      | some t => ts.set j (boostToken boost t)
      | none => ts) tokens

/-- `markNounPhraseTokens` (nlpEnhanced.ts lines 191-215): for every start
    index and every window length 2..4, if the joined lemma sequence is a
    known noun phrase, boost all tokens of the window. -/
def markNounPhraseTokens (tokens : List EnhancedToken)
    (nounPhrases : List String) (boost : ℚ) : List EnhancedToken :=
  (List.range tokens.length).foldl
    (fun ts i =>
      [2, 3, 4].foldl
        (fun ts len =>
          if i + len ≤ ts.length then
            let seq := String.intercalate " "
              (((ts.drop i).take len).map (·.lemm))
            if seq ∈ nounPhrases.map (·.toLower) then boostRange boost ts i len
            else ts
          else ts) ts) tokens

/-- Options of the enhanced pipeline (interface `EnhancedPipelineOptions`),
    with the defaults destructured in `processDocumentsEnhanced`
    (nlpEnhanced.ts lines 441-448). -/
structure EnhancedPipelineOptions where
  enableLemmatization : Bool := true
  enableNgrams : Bool := true
  minNgramFreq : Nat := 2
  maxNgramLength : Nat := 3
  nounPhraseBoost : ℚ := 13/10
  glueWordPenalty : ℚ := 1/2
deriving DecidableEq, Repr

/-- The per-document token computation of `processDocumentsEnhanced` step 1
    (nlpEnhanced.ts lines 455-462): tokenize, then mark noun phrases with
    the boost from the options.  `glueWordPenalty` is destructured by the
    source but passed to no callee; this embedding mirrors that. -/
def pipelineTokens (opts : EnhancedPipelineOptions)
    (infOf singOf : String → String) (terms : List Term)
    (nounPhrases : List String) : List EnhancedToken :=
  markNounPhraseTokens (tokenizeWithLemmas infOf singOf terms) nounPhrases
    opts.nounPhraseBoost

/-- The key under which a token is entered into the global weight map
    (nlpEnhanced.ts line 470). -/
def tokenKey (enableLemmatization : Bool) (t : EnhancedToken) : String :=
  if enableLemmatization then t.lemm else t.text.toLower

/-- One step of the global-token-weight update (nlpEnhanced.ts lines
    469-477): a fresh key is inserted with the token's weight, an existing
    entry `e` is replaced by `(e + w) / 2`. -/
def updateWeight (enableLemmatization : Bool) (m : String → Option ℚ)
    (t : EnhancedToken) : String → Option ℚ :=
  fun k =>
    if k = tokenKey enableLemmatization t then
      match m (tokenKey enableLemmatization t) with
      | some e => some ((e + t.weight) / 2)
      | none => some t.weight
    else m k

/-- The global token→weight map built by `processDocumentsEnhanced` step 1:
    the update loop runs per document, per token, in input order. -/
def globalTokenWeights (enableLemmatization : Bool)
    (docsTokens : List (List EnhancedToken)) : String → Option ℚ :=
  docsTokens.foldl
    (fun m doc => doc.foldl (updateWeight enableLemmatization) m)
    (fun _ => none)

/-- The per-occurrence weights observed for key `k`, in processing order. -/
def occurrenceWeights (enableLemmatization : Bool)
    (docsTokens : List (List EnhancedToken)) (k : String) : List ℚ :=
  (docsTokens.flatten.filter (fun t => tokenKey enableLemmatization t = k)).map
    (·.weight)

/-- `wsum [r1, ..., rn] = r1·2⁰ + r2·2¹ + ... + rn·2ⁿ⁻¹`, the weighted sum
    appearing in the closed form of the running pairwise average. -/
def wsum : List ℚ → ℚ
  | [] => 0
  | r :: rs => r + 2 * wsum rs

/-- The running pairwise average, extracted from the `updateWeight` step:
    the first weight is stored as-is, each later weight `w` replaces the
    entry `e` by `(e + w) / 2`. -/
def applyW : Option ℚ → List ℚ → Option ℚ
  | v, [] => v
  | none, w :: ws => applyW (some w) ws
  | some e, w :: ws => applyW (some ((e + w) / 2)) ws

theorem applyW_some_closed :
    ∀ (ws : List ℚ) (w : ℚ),
      applyW (some w) ws = some ((w + wsum ws) / 2 ^ ws.length) := by
  intro ws
  induction ws with
  | nil => intro w; simp [applyW, wsum]
  | cons r rs ih =>
      intro w
      rw [applyW, ih ((w + r) / 2)]
      congr 1
      rw [wsum, List.length_cons]
      field_simp
      ring

theorem updateWeight_ne (el : Bool) (m : String → Option ℚ)
    (t : EnhancedToken) (k : String) (h : k ≠ tokenKey el t) :
    updateWeight el m t k = m k := by
  simp [updateWeight, h]

/-- A token-list fold of `updateWeight` acts on each key as `applyW` over
    the weights of that key's occurrences, in order. -/
theorem foldl_updateWeight (el : Bool) :
    ∀ (ts : List EnhancedToken) (m : String → Option ℚ) (k : String),
      (ts.foldl (updateWeight el) m) k
        = applyW (m k) ((ts.filter (fun t => tokenKey el t = k)).map (·.weight)) := by
  intro ts
  induction ts with
  | nil => intro m k; simp [applyW]
  | cons t ts ih =>
      intro m k
      rw [List.foldl_cons, ih]
      by_cases h : tokenKey el t = k
      · subst h
        have hupd : updateWeight el m t (tokenKey el t)
            = match m (tokenKey el t) with
              | some e => some ((e + t.weight) / 2)
              | none => some t.weight := by
          simp [updateWeight]
        rw [hupd]
        rw [List.filter_cons_of_pos (by simp)]
        cases m (tokenKey el t) with
        | none => simp [applyW]
        | some e => simp [applyW]
      · rw [updateWeight_ne el m t k (fun he => h he.symm)]
        rw [List.filter_cons_of_neg (by simpa using h)]

/-- Nested per-document folding equals folding the flattened token stream. -/
theorem globalTokenWeights_eq_flatten (el : Bool)
    (docsTokens : List (List EnhancedToken)) :
    globalTokenWeights el docsTokens
      = docsTokens.flatten.foldl (updateWeight el) (fun _ => none) := by
  unfold globalTokenWeights
  generalize (fun _ : String => (none : Option ℚ)) = m
  induction docsTokens generalizing m with
  | nil => simp
  | cons d ds ih => simp [List.foldl_append, ih]

/-- The concrete document set used to separate the running pairwise average
    from the arithmetic mean: three occurrences of the lemma `"alpha"`, the
    last one boosted to weight 1.3. -/
def meanCexDocs : List (List EnhancedToken) :=
  [[{ text := "alpha", lemm := "alpha", pos := "NOUN",
      isNounPhrase := false, weight := 1 },
    { text := "alphas", lemm := "alpha", pos := "NOUN",
      isNounPhrase := false, weight := 1 },
    { text := "alpha", lemm := "alpha", pos := "NOUN",
      isNounPhrase := true, weight := 13/10 }]]

/-- Claim C4, as stated: the stored entry is the arithmetic mean of the
    per-occurrence weights.  Refuted: for occurrence weights 1, 1, 1.3 the
    code stores ((1+1)/2 + 1.3)/2 = 1.15, while the mean is 1.1. -/
theorem claim_C4_counterexample :
    occurrenceWeights true meanCexDocs "alpha" = [1, 1, 13/10]
    ∧ globalTokenWeights true meanCexDocs "alpha" = some (23/20)
    ∧ (23/20 : ℚ) ≠ (1 + 1 + 13/10) / 3 := by
  refine ⟨by with_unfolding_all decide, ?_, by with_unfolding_all decide⟩
  rw [globalTokenWeights_eq_flatten, foldl_updateWeight]
  with_unfolding_all decide

/-- Claim C4, amended: the entry stored in the global token→weight map for a
    lemma with occurrence weights `w :: ws` (in processing order) is the
    running pairwise average `((…((w+ws₁)/2)+ws₂)/2 …)`, in closed form
    `(w + Σᵢ wsᵢ·2^(i-1)) / 2^|ws|` — an exponentially weighted average
    biased toward later occurrences, not the arithmetic mean. -/
theorem claim_C4 (docsTokens : List (List EnhancedToken)) (k : String)
    (w : ℚ) (ws : List ℚ)
    (h : occurrenceWeights true docsTokens k = w :: ws) :
    globalTokenWeights true docsTokens k
      = some ((w + wsum ws) / 2 ^ ws.length) := by
  rw [globalTokenWeights_eq_flatten, foldl_updateWeight]
  have : (docsTokens.flatten.filter (fun t => tokenKey true t = k)).map (·.weight)
      = w :: ws := h
  rw [this, applyW, applyW_some_closed]

theorem claim_C4_witness :
    occurrenceWeights true meanCexDocs "alpha" = 1 :: [1, 13/10]
    ∧ globalTokenWeights true meanCexDocs "alpha"
        = some ((1 + wsum [1, 13/10]) / 2 ^ ([1, 13/10] : List ℚ).length) :=
  ⟨by with_unfolding_all decide,
    claim_C4 meanCexDocs "alpha" 1 [1, 13/10] (by with_unfolding_all decide)⟩

/-- The concrete run separating the applied glue-word factor from the
    `glueWordPenalty` option: a single glue-word term with a non-default
    penalty of 0.25 in the options. -/
def glueCexOpts : EnhancedPipelineOptions := { glueWordPenalty := 1/4 }

def glueCexTerms : List Term := [{ text := "process", tags := ["Noun"],
                                   normal := some "process" }]

/-- Claim C5, as stated: glue-word tokens are weighted by the caller-supplied
    `glueWordPenalty` (here 0.25).  Refuted: the pipeline weights the glue
    token by the hard-coded 0.5 — the option value is never read. -/
theorem claim_C5_counterexample :
    (pipelineTokens glueCexOpts (fun s => s) (fun s => s) glueCexTerms []).map
        (·.weight) = [1/2]
    ∧ glueCexOpts.glueWordPenalty = 1/4
    ∧ (1/2 : ℚ) ≠ 1 * (1/4) := by
  refine ⟨?_, by with_unfolding_all decide, by with_unfolding_all decide⟩
  with_unfolding_all decide

/-- Claim C5, amended: the glue-word factor actually applied is the constant
    0.5 hard-coded in `tokenizeWithLemmas`; the `glueWordPenalty` option is
    accepted (default 0.5) but has no effect on any token weight — the
    pipeline's step-1 token output is independent of it. -/
theorem claim_C5 (p q : ℚ) (opts : EnhancedPipelineOptions)
    (infOf singOf : String → String) (terms : List Term)
    (phrases : List String) (t : EnhancedToken) :
    pipelineTokens { opts with glueWordPenalty := p } infOf singOf terms phrases
      = pipelineTokens { opts with glueWordPenalty := q } infOf singOf
          terms phrases
    ∧ (t ∈ tokenizeWithLemmas infOf singOf terms →
        t.weight = if t.lemm ∈ GLUE_WORDS then 1 * (1/2) else 1) := by
  constructor
  · rfl
  · intro ht
    have main : ∀ (l : List Term) (acc : List EnhancedToken),
        (∀ u ∈ acc, u.weight = if u.lemm ∈ GLUE_WORDS then 1 * (1/2) else 1) →
        ∀ u ∈ l.foldl (fun acc term =>
          if term.text = "" ∨ term.text.trim.length < 2 then acc
          else if "Punctuation" ∈ term.tags ∨ "Cardinal" ∈ term.tags then acc
          else
            let text := term.text.trim
            let pos := posOfTags term.tags
            let lem0 := match term.normal with
              | some n => if n ≠ "" then n else text.toLower
              | none => text.toLower
            let lem :=
              if pos = "VERB" then
                (if infOf text ≠ "" then (infOf text).toLower else lem0)
              else if pos = "NOUN" then
                (if singOf text ≠ "" then (singOf text).toLower else lem0)
              else lem0
            let weight : ℚ := if lem ∈ GLUE_WORDS then 1 * (1/2) else 1
            acc ++ [{ text := text, lemm := lem, pos := pos,
                      isNounPhrase := false, weight := weight }]) acc,
          u.weight = if u.lemm ∈ GLUE_WORDS then 1 * (1/2) else 1 := by
      intro l
      induction l with
      | nil => intro acc hacc u hu; exact hacc u hu
      | cons term rest ih =>
          intro acc hacc u hu
          rw [List.foldl_cons] at hu
          refine ih _ ?_ u hu
          intro v hv
          split at hv
          · exact hacc v hv
          · split at hv
            · exact hacc v hv
            · simp only [List.mem_append, List.mem_singleton] at hv
              rcases hv with hv | hv
              · exact hacc v hv
              · subst hv; simp
    exact main terms [] (by simp) t ht

theorem claim_C5_witness :
    ({ text := "process", lemm := "process", pos := "NOUN",
       isNounPhrase := false, weight := 1/2 } : EnhancedToken)
      ∈ tokenizeWithLemmas (fun s => s) (fun s => s) glueCexTerms
    ∧ (1/2 : ℚ) = if "process" ∈ GLUE_WORDS then 1 * (1/2) else 1 :=
  ⟨by with_unfolding_all decide,
    (claim_C5 (1/4) (1/2) {} (fun s => s) (fun s => s) glueCexTerms []
      { text := "process", lemm := "process", pos := "NOUN",
        isNounPhrase := false, weight := 1/2 }).2
      (by with_unfolding_all decide)⟩

/-! ## Cosine distance matrix (src/lib/utils/math.ts) -/

/-- The single-pass accumulation of `cosineSimilarity` (math.ts lines
    107-118): one loop over the indices of `a` accumulating the dot product
    and both squared magnitudes.  JS array indexing is modeled by `getD`
    with default 0; the worker only ever applies this to equal-length
    vectors. -/
def cosAcc (a b : List ℝ) : ℝ × ℝ × ℝ :=
  (List.range a.length).foldl
    (fun p i => (p.1 + a.getD i 0 * b.getD i 0,
                 p.2.1 + a.getD i 0 * a.getD i 0,
                 p.2.2 + b.getD i 0 * b.getD i 0)) (0, 0, 0)

/-- `cosineSimilarity` (math.ts lines 107-118): similarity is 0 when either
    magnitude is 0, else `dot / (√magA · √magB)`. -/
noncomputable def cosineSimilarity (a b : List ℝ) : ℝ :=
  let acc := cosAcc a b
  if acc.2.1 = 0 ∨ acc.2.2 = 0 then 0
  else acc.1 / (Real.sqrt acc.2.1 * Real.sqrt acc.2.2)

/-- Write `v` at row `i`, column `j` (`matrix[i][j] = v`). -/
def setMat (m : List (List ℝ)) (i j : Nat) (v : ℝ) : List (List ℝ) :=
  m.set i ((m.getD i []).set j v)

/-- Read row `i`, column `j`, defaulting to 0 outside the matrix. -/
def mget (m : List (List ℝ)) (i j : Nat) : ℝ := (m.getD i []).getD j 0

/-- `calculateDistanceMatrix` (math.ts lines 88-105): an n×n zero matrix,
    then for every `i ≤ j` either a zero diagonal write or one computed
    distance `max 0 (1 − sim)` mirrored into `(i,j)` and `(j,i)`. -/
noncomputable def calculateDistanceMatrix (vectors : List (List ℝ)) :
    List (List ℝ) :=
  let n := vectors.length
  (List.range n).foldl
    (fun m i =>
      (List.range' i (n - i)).foldl
        (fun m j =>
          if i = j then setMat m i j 0
          else
            let sim := cosineSimilarity (vectors.getD i []) (vectors.getD j [])
            let dist := max 0 (1 - sim)
            setMat (setMat m i j dist) j i dist) m)
    (List.replicate n (List.replicate n 0))

theorem getD_replicate {α : Type _} (x d : α) :
    ∀ (n a : Nat), (List.replicate n x).getD a d = if a < n then x else d := by
  intro n
  induction n with
  | zero => intro a; simp
  | succ n ih =>
      intro a
      cases a with
      | zero => simp [List.replicate]
      | succ a =>
          rw [List.replicate, List.getD_cons_succ, ih a]
          by_cases h : a < n
          · rw [if_pos h, if_pos (by omega)]
          · rw [if_neg h, if_neg (by omega)]

theorem mget_setMat (m : List (List ℝ)) (i j : Nat) (v : ℝ) (a b : Nat) :
    mget (setMat m i j v) a b
      = if a = i ∧ b = j ∧ i < m.length ∧ j < (m.getD i []).length then v
        else mget m a b := by
  unfold mget setMat
  rw [getD_set]
  by_cases hrow : i = a ∧ i < m.length
  · rw [if_pos hrow, getD_set]
    obtain ⟨rfl, hi⟩ := hrow
    by_cases hcol : j = b ∧ j < (m.getD i []).length
    · obtain ⟨rfl, hj⟩ := hcol
      rw [if_pos ⟨rfl, hj⟩, if_pos ⟨rfl, rfl, hi, hj⟩]
    · rw [if_neg hcol, if_neg (fun hc => hcol ⟨hc.2.1.symm, hc.2.2.2⟩)]
  · rw [if_neg hrow, if_neg (fun hc => hrow ⟨hc.1.symm, hc.2.2.1⟩)]

theorem length_setMat (m : List (List ℝ)) (i j : Nat) (v : ℝ) :
    (setMat m i j v).length = m.length := by
  unfold setMat; exact List.length_set m i _

theorem rows_setMat (m : List (List ℝ)) (i j : Nat) (v : ℝ) (n : Nat)
    (h : ∀ r ∈ m, r.length = n) : ∀ r ∈ setMat m i j v, r.length = n := by
  intro r hr
  rcases Nat.lt_or_ge i m.length with hi | hi
  · rcases List.mem_or_eq_of_mem_set hr with hmem | rfl
    · exact h r hmem
    · rw [List.length_set]
      exact h _ (List.getD_eq_getElem m [] hi ▸ m.getElem_mem hi)
  · rw [setMat, List.set_eq_of_length_le hi] at hr
    exact h r hr

/-- The matrix invariant used for symmetry and the zero diagonal: the matrix
    is n×n, symmetric, and has zero diagonal. -/
def SymState (n : Nat) (m : List (List ℝ)) : Prop :=
  m.length = n ∧ (∀ r ∈ m, r.length = n)
    ∧ (∀ a b, mget m a b = mget m b a) ∧ (∀ a, mget m a a = 0)

/-- On a square matrix, `mget` after `setMat` has bounds expressed by `n`. -/
theorem mget_setMat' {n : Nat} {m : List (List ℝ)} (hlen : m.length = n)
    (hrows : ∀ r ∈ m, r.length = n) (i j : Nat) (v : ℝ) (a b : Nat) :
    mget (setMat m i j v) a b
      = if a = i ∧ b = j ∧ i < n ∧ j < n then v else mget m a b := by
  rw [mget_setMat]
  rcases Nat.lt_or_ge i n with hi | hi
  · have hrow : (m.getD i []).length = n := by
      have him : i < m.length := by omega
      exact hrows _ (List.getD_eq_getElem m [] him ▸ m.getElem_mem him)
    rw [hlen, hrow]
  · rw [if_neg (by omega), if_neg (by omega)]

theorem symState_init (n : Nat) :
    SymState n (List.replicate n (List.replicate n 0)) := by
  have hval : ∀ a b, mget (List.replicate n (List.replicate n (0:ℝ))) a b = 0 := by
    intro a b
    rw [mget, getD_replicate]
    split
    · rw [getD_replicate]; split <;> rfl
    · rfl
  exact ⟨by simp, fun r hr => by rw [List.eq_of_mem_replicate hr]; simp,
    fun a b => by rw [hval, hval], fun a => hval a a⟩

theorem symState_write_diag {n : Nat} {m : List (List ℝ)} (i : Nat)
    (h : SymState n m) : SymState n (setMat m i i 0) := by
  obtain ⟨hlen, hrows, hsym, hdiag⟩ := h
  refine ⟨by rw [length_setMat, hlen], rows_setMat m i i 0 n hrows, ?_, ?_⟩
  · intro a b
    rw [mget_setMat' hlen hrows, mget_setMat' hlen hrows]
    by_cases hc : a = i ∧ b = i ∧ i < n ∧ i < n
    · rw [if_pos hc, if_pos ⟨hc.2.1, hc.1, hc.2.2⟩]
    · rw [if_neg hc, if_neg (fun hc' => hc ⟨hc'.2.1, hc'.1, hc'.2.2⟩), hsym]
  · intro a
    rw [mget_setMat' hlen hrows]
    split
    · rfl
    · exact hdiag a

theorem symState_write_pair {n : Nat} {m : List (List ℝ)} (i j : Nat)
    (hij : i ≠ j) (d : ℝ) (h : SymState n m) :
    SymState n (setMat (setMat m i j d) j i d) := by
  obtain ⟨hlen, hrows, hsym, hdiag⟩ := h
  have hlen1 : (setMat m i j d).length = n := by rw [length_setMat, hlen]
  have hrows1 := rows_setMat m i j d n hrows
  have hget : ∀ a b, mget (setMat (setMat m i j d) j i d) a b
      = if a = j ∧ b = i ∧ j < n ∧ i < n then d
        else if a = i ∧ b = j ∧ i < n ∧ j < n then d
        else mget m a b := by
    intro a b
    rw [mget_setMat' hlen1 hrows1, mget_setMat' hlen hrows]
  refine ⟨by rw [length_setMat, hlen1],
    rows_setMat _ j i d n hrows1, ?_, ?_⟩
  · intro a b
    rw [hget, hget]
    by_cases h1 : a = j ∧ b = i ∧ j < n ∧ i < n
    · rw [if_pos h1, if_neg (fun hc => hij ((hc.2.1).symm.trans h1.1)),
        if_pos ⟨h1.2.1, h1.1, h1.2.2.2, h1.2.2.1⟩]
    · rw [if_neg h1]
      by_cases h2 : a = i ∧ b = j ∧ i < n ∧ j < n
      · rw [if_pos h2, if_pos ⟨h2.2.1, h2.1, h2.2.2.2, h2.2.2.1⟩]
      · rw [if_neg h2, if_neg (fun hc => h2 ⟨hc.2.1, hc.1, hc.2.2.2, hc.2.2.1⟩),
          if_neg (fun hc => h1 ⟨hc.2.1, hc.1, hc.2.2.2, hc.2.2.1⟩), hsym]
  · intro a
    rw [hget, if_neg (by rintro ⟨rfl, rfl, -, -⟩; exact hij rfl),
      if_neg (by rintro ⟨rfl, rfl, -, -⟩; exact hij rfl)]
    exact hdiag a

/-- The computed matrix is square, symmetric and has zero diagonal. -/
theorem distanceMatrix_symState (vectors : List (List ℝ)) :
    SymState vectors.length (calculateDistanceMatrix vectors) := by
  unfold calculateDistanceMatrix
  set n := vectors.length with hn
  apply foldl_inv (SymState n)
  · exact symState_init n
  · intro m i hi hP
    apply foldl_inv (SymState n)
    · exact hP
    · intro m' j hj hP'
      by_cases hij : i = j
      · subst hij
        rw [if_pos rfl]
        exact symState_write_diag i hP'
      · rw [if_neg hij]
        exact symState_write_pair i j hij _ hP'

/-- Claim C3: for every vector set, the distance matrix of
    `calculateDistanceMatrix` satisfies `matrix[i][j] = matrix[j][i]` with
    exact equality (each off-diagonal value is computed once for the upper
    triangle and mirrored) and `matrix[i][i] = 0`. -/
theorem claim_C3 (vectors : List (List ℝ)) (i j : Nat) :
    mget (calculateDistanceMatrix vectors) i j
      = mget (calculateDistanceMatrix vectors) j i
    ∧ mget (calculateDistanceMatrix vectors) i i = 0 :=
  ⟨(distanceMatrix_symState vectors).2.2.1 i j,
   (distanceMatrix_symState vectors).2.2.2 i⟩

/-- Every entry the loop ever writes is `0` or `max 0 (1 − sim)`, hence the
    whole matrix is entrywise nonnegative. -/
theorem distanceMatrix_nonneg (vectors : List (List ℝ)) (a b : Nat) :
    0 ≤ mget (calculateDistanceMatrix vectors) a b := by
  unfold calculateDistanceMatrix
  set n := vectors.length with hn
  apply foldl_inv (fun m => ∀ a b, 0 ≤ mget m a b) _ _ _
    (fun a b => by
      rw [mget, getD_replicate]
      split
      · rw [getD_replicate]; split <;> norm_num
      · norm_num) ?_ a b
  intro m i hi hP
  apply foldl_inv (fun m => ∀ a b, 0 ≤ mget m a b) _ _ _ hP
  intro m' j hj hP' a b
  by_cases hij : i = j
  · rw [if_pos hij, mget_setMat]
    split
    · rfl
    · exact hP' a b
  · rw [if_neg hij, mget_setMat, mget_setMat]
    split
    · exact le_max_left 0 _
    · split
      · exact le_max_left 0 _
      · exact hP' a b

/-- When every computed cosine similarity is nonnegative, every matrix entry
    is at most 1. -/
theorem distanceMatrix_le_one (vectors : List (List ℝ))
    (hsim : ∀ i j, 0 ≤ cosineSimilarity (vectors.getD i []) (vectors.getD j []))
    (a b : Nat) : mget (calculateDistanceMatrix vectors) a b ≤ 1 := by
  unfold calculateDistanceMatrix
  set n := vectors.length with hn
  apply foldl_inv (fun m => ∀ a b, mget m a b ≤ 1) _ _ _
    (fun a b => by
      rw [mget, getD_replicate]
      split
      · rw [getD_replicate]; split <;> norm_num
      · norm_num) ?_ a b
  intro m i hi hP
  apply foldl_inv (fun m => ∀ a b, mget m a b ≤ 1) _ _ _ hP
  intro m' j hj hP' a b
  have hd : max 0 (1 - cosineSimilarity (vectors.getD i []) (vectors.getD j []))
      ≤ 1 := max_le (by norm_num) (by linarith [hsim i j])
  by_cases hij : i = j
  · rw [if_pos hij, mget_setMat]
    split
    · norm_num
    · exact hP' a b
  · rw [if_neg hij, mget_setMat, mget_setMat]
    split
    · exact hd
    · split
      · exact hd
      · exact hP' a b

/-! ## TF-IDF vectors (src/lib/utils/math.ts lines 47-86) -/

/-- Options of `calculateTfIdfVector` (interface `TfIdfOptions`): the JS
    `Map` of custom weights is modeled as a partial function, `undefined`
    lookups as `none` (the source falls back to 1.0 via `?? 1.0`). -/
structure TfIdfOptions where
  tokenWeights : String → Option ℝ := fun _ => none
  normalizeVector : Bool := false

/-- The per-term body of the `vocab.map` in `calculateTfIdfVector`
    (math.ts lines 62-73): `tf · idf · weight`, or 0 when the term does not
    occur.  `Math.log10` is `Real.logb 10`. -/
noncomputable def tfidfEntry (tokens : List String)
    (allDocs : List (List String)) (options : TfIdfOptions)
    (term : String) : ℝ :=
  let tf : ℝ := ((tokens.filter (· = term)).length : ℝ) / (tokens.length : ℝ)
  if tf = 0 then 0
  else
    let docsWithTerm := (allDocs.filter (fun d => term ∈ d)).length
    let idf := Real.logb 10 ((allDocs.length : ℝ) / (1 + (docsWithTerm : ℝ)))
    let weight := (options.tokenWeights term).getD 1
    tf * idf * weight

/-- `calculateTfIdfVector` (math.ts lines 52-86): zero vector for an empty
    token list, per-term scores over the vocabulary, then optional L2
    normalization (a no-op when the magnitude is not positive). -/
noncomputable def calculateTfIdfVector (tokens : List String)
    (allDocs : List (List String)) (vocab : List String)
    (options : TfIdfOptions) : List ℝ :=
  if tokens.length = 0 then vocab.map (fun _ => 0)
  else
    let vector := vocab.map (tfidfEntry tokens allDocs options)
    if options.normalizeVector then
      let magnitude := Real.sqrt (vector.foldl (fun sum v => sum + v * v) 0)
      if 0 < magnitude then vector.map (fun v => v / magnitude) else vector
    else vector

/-- Two TF-IDF scores of the same term over the same corpus multiply to a
    nonnegative number: the `idf · weight` factor is shared, so the product
    is `tf·tf'·(idf·weight)² ≥ 0`. -/
theorem tfidfEntry_mul_nonneg (toksU toksV : List String)
    (allDocs : List (List String)) (options : TfIdfOptions) (term : String) :
    0 ≤ tfidfEntry toksU allDocs options term
        * tfidfEntry toksV allDocs options term := by
  unfold tfidfEntry
  by_cases hU : ((toksU.filter (· = term)).length : ℝ) / (toksU.length : ℝ) = 0
  · rw [if_pos hU, zero_mul]
  · rw [if_neg hU]
    by_cases hV : ((toksV.filter (· = term)).length : ℝ) / (toksV.length : ℝ) = 0
    · rw [if_pos hV, mul_zero]
    · rw [if_neg hV]
      have htU : (0:ℝ) ≤ ((toksU.filter (· = term)).length : ℝ) / (toksU.length : ℝ) :=
        div_nonneg (Nat.cast_nonneg _) (Nat.cast_nonneg _)
      have htV : (0:ℝ) ≤ ((toksV.filter (· = term)).length : ℝ) / (toksV.length : ℝ) :=
        div_nonneg (Nat.cast_nonneg _) (Nat.cast_nonneg _)
      set tfU := ((toksU.filter (· = term)).length : ℝ) / (toksU.length : ℝ)
      set tfV := ((toksV.filter (· = term)).length : ℝ) / (toksV.length : ℝ)
      set c := Real.logb 10 ((allDocs.length : ℝ)
        / (1 + ((allDocs.filter (fun d => term ∈ d)).length : ℝ)))
        * (options.tokenWeights term).getD 1
      calc (0:ℝ) ≤ (tfU * tfV) * (c * c) :=
            mul_nonneg (mul_nonneg htU htV) (mul_self_nonneg c)
        _ = tfU * Real.logb 10 ((allDocs.length : ℝ)
              / (1 + ((allDocs.filter (fun d => term ∈ d)).length : ℝ)))
              * (options.tokenWeights term).getD 1
              * (tfV * Real.logb 10 ((allDocs.length : ℝ)
              / (1 + ((allDocs.filter (fun d => term ∈ d)).length : ℝ)))
              * (options.tokenWeights term).getD 1) := by
            simp only [c]; ring

/-- A TF-IDF vector reads, at every index, as a fixed nonnegative scalar
    times the raw per-term score (the scalar is 1, or the reciprocal of the
    magnitude in the normalized branch). -/
theorem calculateTfIdfVector_getD (tokens : List String)
    (allDocs : List (List String)) (vocab : List String)
    (options : TfIdfOptions) :
    ∃ c : ℝ, 0 ≤ c ∧ ∀ k : Nat,
      (calculateTfIdfVector tokens allDocs vocab options).getD k 0
        = c * (vocab.map (tfidfEntry tokens allDocs options)).getD k 0 := by
  unfold calculateTfIdfVector
  by_cases hemp : tokens.length = 0
  · refine ⟨1, by norm_num, fun k => ?_⟩
    rw [if_pos hemp, one_mul]
    have htok : tokens = [] := List.length_eq_zero.mp hemp
    subst htok
    have hentry : tfidfEntry [] allDocs options = fun _ => 0 := by
      funext term
      unfold tfidfEntry
      simp
    rw [hentry]
  · rw [if_neg hemp]
    by_cases hnorm : options.normalizeVector = true
    · rw [if_pos hnorm]
      set vec := vocab.map (tfidfEntry tokens allDocs options) with hvec
      by_cases hmag : 0 < Real.sqrt (vec.foldl (fun sum v => sum + v * v) 0)
      · rw [if_pos hmag]
        refine ⟨(Real.sqrt (vec.foldl (fun sum v => sum + v * v) 0))⁻¹,
          inv_nonneg.mpr (Real.sqrt_nonneg _), fun k => ?_⟩
        rcases Nat.lt_or_ge k vec.length with hk | hk
        · rw [List.getD_eq_getElem _ _ (by simpa using hk),
            List.getD_eq_getElem _ _ hk, List.getElem_map]
          rw [div_eq_inv_mul]
        · rw [List.getD_eq_default _ _ (by simpa using hk),
            List.getD_eq_default _ _ hk, mul_zero]
      · rw [if_neg hmag]
        exact ⟨1, by norm_num, fun k => by rw [one_mul]⟩
    · rw [if_neg hnorm]
      exact ⟨1, by norm_num, fun k => by rw [one_mul]⟩

/-- Pointwise products of two TF-IDF vectors over the same corpus and
    vocabulary are nonnegative. -/
theorem tfidf_pointwise_nonneg (toksU toksV : List String)
    (allDocs : List (List String)) (vocab : List String)
    (options : TfIdfOptions) (k : Nat) :
    0 ≤ (calculateTfIdfVector toksU allDocs vocab options).getD k 0
        * (calculateTfIdfVector toksV allDocs vocab options).getD k 0 := by
  obtain ⟨cU, hcU, hU⟩ :=
    calculateTfIdfVector_getD toksU allDocs vocab options
  obtain ⟨cV, hcV, hV⟩ :=
    calculateTfIdfVector_getD toksV allDocs vocab options
  rw [hU k, hV k]
  have hraw : 0 ≤ (vocab.map (tfidfEntry toksU allDocs options)).getD k 0
      * (vocab.map (tfidfEntry toksV allDocs options)).getD k 0 := by
    rcases Nat.lt_or_ge k vocab.length with hk | hk
    · rw [List.getD_eq_getElem _ _ (by simpa using hk),
        List.getD_eq_getElem _ _ (by simpa using hk),
        List.getElem_map, List.getElem_map]
      exact tfidfEntry_mul_nonneg toksU toksV allDocs options vocab[k]
    · rw [List.getD_eq_default _ _ (by simpa using hk), zero_mul]
  calc 0 ≤ (cU * cV) * ((vocab.map (tfidfEntry toksU allDocs options)).getD k 0
        * (vocab.map (tfidfEntry toksV allDocs options)).getD k 0) :=
        mul_nonneg (mul_nonneg hcU hcV) hraw
    _ = cU * (vocab.map (tfidfEntry toksU allDocs options)).getD k 0
        * (cV * (vocab.map (tfidfEntry toksV allDocs options)).getD k 0) := by
        ring

/-- The dot-product accumulator of `cosineSimilarity` is nonnegative when
    all pointwise products are. -/
theorem cosAcc_fst_nonneg (a b : List ℝ)
    (h : ∀ k, 0 ≤ a.getD k 0 * b.getD k 0) : 0 ≤ (cosAcc a b).1 := by
  unfold cosAcc
  apply foldl_inv (fun p : ℝ × ℝ × ℝ => 0 ≤ p.1)
  · exact le_refl 0
  · intro p i _ hp
    exact add_nonneg hp (h i)

theorem cosineSimilarity_nonneg (a b : List ℝ)
    (h : ∀ k, 0 ≤ a.getD k 0 * b.getD k 0) : 0 ≤ cosineSimilarity a b := by
  show 0 ≤ if (cosAcc a b).2.1 = 0 ∨ (cosAcc a b).2.2 = 0 then 0
    else (cosAcc a b).1 / (Real.sqrt (cosAcc a b).2.1 * Real.sqrt (cosAcc a b).2.2)
  split
  · exact le_refl 0
  · exact div_nonneg (cosAcc_fst_nonneg a b h)
      (mul_nonneg (Real.sqrt_nonneg _) (Real.sqrt_nonneg _))

/-- Claim C2, amended: every distance-matrix entry is nonnegative for any
    vector set, and for vector sets produced by `calculateTfIdfVector` over
    one corpus (the worker's use) every entry lies in [0, 1] — the TF-IDF
    components of one term share a sign across documents (even a negative
    idf), so cosine similarities are nonnegative; an entry can exceed 1 only
    for vector pairs with negative dot product, which TF-IDF never makes. -/
theorem claim_C2 (vectors : List (List ℝ)) (docTokens : List (List String))
    (vocab : List String) (options : TfIdfOptions) (a b : Nat) :
    0 ≤ mget (calculateDistanceMatrix vectors) a b
    ∧ 0 ≤ mget (calculateDistanceMatrix (docTokens.map
        (fun ts => calculateTfIdfVector ts docTokens vocab options))) a b
    ∧ mget (calculateDistanceMatrix (docTokens.map
        (fun ts => calculateTfIdfVector ts docTokens vocab options))) a b
      ≤ 1 := by
  refine ⟨distanceMatrix_nonneg vectors a b, distanceMatrix_nonneg _ a b, ?_⟩
  apply distanceMatrix_le_one
  intro i j
  apply cosineSimilarity_nonneg
  intro k
  set vs := docTokens.map (fun ts => calculateTfIdfVector ts docTokens vocab options)
    with hvs
  have hget : ∀ i : Nat, vs.getD i [] = []
      ∨ ∃ ts, vs.getD i [] = calculateTfIdfVector ts docTokens vocab options := by
    intro i
    rcases Nat.lt_or_ge i docTokens.length with hi | hi
    · right
      refine ⟨docTokens[i], ?_⟩
      rw [hvs, List.getD_eq_getElem _ _ (by simpa using hi), List.getElem_map]
    · left
      rw [hvs, List.getD_eq_default _ _ (by simpa using hi)]
  rcases hget i with hi | ⟨tsU, hi⟩
  · rw [hi]; simp
  · rcases hget j with hj | ⟨tsV, hj⟩
    · rw [hj]; simp
    · rw [hi, hj]
      exact tfidf_pointwise_nonneg tsU tsV docTokens vocab options k

/-- Claim C2, as stated ("every entry of the distance matrix lies in
    [0, 1] for every set of input vectors"), is refuted: for the vectors
    `[1]` and `[-1]` the cosine similarity is −1 and the stored distance is
    `max 0 (1 − (−1)) = 2 > 1` — the `max` clamps only from below. -/
theorem claim_C2_counterexample :
    mget (calculateDistanceMatrix [[(1:ℝ)], [-1]]) 0 1 = 2
    ∧ ¬ mget (calculateDistanceMatrix [[(1:ℝ)], [-1]]) 0 1 ≤ 1 := by
  have hcos : cosineSimilarity [(1:ℝ)] [-1] = -1 := by
    unfold cosineSimilarity cosAcc
    norm_num [List.range_succ, Real.sqrt_one]
  have hmat : mget (calculateDistanceMatrix [[(1:ℝ)], [-1]]) 0 1 = 2 := by
    unfold calculateDistanceMatrix
    norm_num [List.range_succ, show List.range' 0 2 = [0, 1] from rfl, hcos,
      setMat, mget, List.replicate, max_eq_right]
  exact ⟨hmat, by rw [hmat]; norm_num⟩

/-! ## Dendrogram cutoff (nlpEnhanced.ts lines 362-423, worker lines
    721-743).  Merge heights are exact here (ℚ); `[...].sort((a,b) => a-b)`
    is a stable ascending sort, modeled by insertion sort. -/

def sortAsc (l : List ℚ) : List ℚ := List.insertionSort (· ≤ ·) l

structure CutoffStats where
  min : ℚ
  max : ℚ
  median : ℚ
  mean : ℚ
deriving DecidableEq, Repr

structure CutoffResult where
  cutoff : ℚ
  heights : List ℚ
  stats : CutoffStats
deriving DecidableEq, Repr

/-- `computeDendrogramCutoff` (nlpEnhanced.ts lines 362-395).  The empty
    case returns `cutoff = Infinity` in the source; the worker only calls
    this with a nonempty height list (guard at worker line 726), and ℚ has
    no infinity, so the embedding returns 0 there. -/
def computeDendrogramCutoff (heights : List ℚ) (percentile : ℚ) :
    CutoffResult :=
  if heights.length = 0 then
    { cutoff := 0, heights := [],
      stats := { min := 0, max := 0, median := 0, mean := 0 } }
  else
    let sorted := sortAsc heights
    let mn := sorted.getD 0 0
    let mx := sorted.getD (sorted.length - 1) 0
    let mean := (heights.foldl (· + ·) 0) / (heights.length : ℚ)
    let medianIdx := sorted.length / 2
    let median := if sorted.length % 2 = 0 then
        (sorted.getD (medianIdx - 1) 0 + sorted.getD medianIdx 0) / 2
      else sorted.getD medianIdx 0
    let cutoffIdx :=
      Nat.min (⌊(sorted.length : ℚ) * percentile⌋.toNat) (sorted.length - 1)
    { cutoff := sorted.getD cutoffIdx 0, heights := sorted,
      stats := { min := mn, max := mx, median := median, mean := mean } }

/-- `findHeightGaps` (nlpEnhanced.ts lines 400-423): for each adjacent pair
    of the sorted heights with positive predecessor and ratio at least
    `minGapRat`, record the height where the gap occurs — the *upper* value
    `curr`. -/
def findHeightGaps (heights : List ℚ) (minGapRat : ℚ) : List ℚ :=
  if heights.length < 2 then []
  else
    let sorted := sortAsc heights
    (List.range' 1 (sorted.length - 1)).filterMap (fun i =>
      let prev := sorted.getD (i - 1) 0
      let curr := sorted.getD i 0
      if 0 < prev ∧ minGapRat ≤ curr / prev then some curr else none)

/-- The effective-cutoff computation of the worker (cluster.worker.impl.ts
    lines 727-736): the percentile cutoff, lowered to the smallest detected
    gap height when any gap exists (`Math.min(...gaps)`). -/
def effectiveCutoff (heights : List ℚ) (percentile : ℚ) : ℚ :=
  let cutoff := (computeDendrogramCutoff heights percentile).cutoff
  let gaps := findHeightGaps heights (3/2)
  match gaps with
  | [] => cutoff
  | g :: gs => min cutoff (gs.foldl min g)

theorem foldl_min_le (gs : List ℚ) :
    ∀ g : ℚ, gs.foldl min g ≤ g ∧ ∀ x ∈ gs, gs.foldl min g ≤ x := by
  induction gs with
  | nil => intro g; exact ⟨le_refl g, by simp⟩
  | cons a gs ih =>
      intro g
      rw [List.foldl_cons]
      refine ⟨le_trans (ih (min g a)).1 (min_le_left g a), ?_⟩
      intro x hx
      rcases List.mem_cons.mp hx with rfl | hx
      · exact le_trans (ih (min g x)).1 (min_le_right g x)
      · exact (ih (min g a)).2 x hx

/-- The 100-height scenario of the claim: 80 merge heights at 0.3 and 20 at
    0.9, so the 85th-percentile height (index 85 of the sorted list) lies
    above the gap. -/
def gapCexHeights : List ℚ :=
  List.replicate 80 (3/10) ++ List.replicate 20 (9/10)

/-- Claim C7, as stated: with a sorted gap `0.3 → 0.9` (ratio 3 ≥ 1.5) the
    effective cutoff should be at most `0.3 · 1.5 = 0.45`.  Refuted: the
    gap list records the post-gap height 0.9, the percentile cutoff is also
    0.9, and the effective cutoff is 0.9 > 0.45. -/
theorem claim_C7_counterexample :
    (sortAsc gapCexHeights).getD 79 0 = 3/10
    ∧ (sortAsc gapCexHeights).getD 80 0 = 9/10
    ∧ (3/2 : ℚ) ≤ (sortAsc gapCexHeights).getD 80 0
        / (sortAsc gapCexHeights).getD 79 0
    ∧ effectiveCutoff gapCexHeights (85/100) = 9/10
    ∧ ¬ effectiveCutoff gapCexHeights (85/100) ≤ (3/10) * (3/2) := by
  set_option maxRecDepth 100000 in
  refine ⟨by with_unfolding_all decide, by with_unfolding_all decide,
    by with_unfolding_all decide, by with_unfolding_all decide,
    by with_unfolding_all decide⟩

/-- Claim C7, amended: whenever the sorted heights contain an adjacent pair
    `prev, curr` with `prev > 0` and `curr / prev ≥ 1.5`, the effective
    cutoff is at most `curr` — the post-gap height (which is at least
    `1.5 · prev`), not `1.5 · prev` itself. -/
theorem claim_C7 (heights : List ℚ) (percentile : ℚ) (k : Nat)
    (hk1 : 1 ≤ k) (hk2 : k < (sortAsc heights).length)
    (hprev : 0 < (sortAsc heights).getD (k - 1) 0)
    (hrat : (3/2 : ℚ) ≤ (sortAsc heights).getD k 0
        / (sortAsc heights).getD (k - 1) 0) :
    effectiveCutoff heights percentile ≤ (sortAsc heights).getD k 0 := by
  have hlen : (sortAsc heights).length = heights.length :=
    (List.perm_insertionSort _ heights).length_eq
  have hmem : (sortAsc heights).getD k 0 ∈ findHeightGaps heights (3/2) := by
    unfold findHeightGaps
    rw [if_neg (by omega)]
    apply List.mem_filterMap.mpr
    refine ⟨k, ?_, ?_⟩
    · apply List.mem_range'.mpr
      exact ⟨k - 1, by omega, by omega⟩
    · rw [if_pos ⟨hprev, hrat⟩]
  unfold effectiveCutoff
  cases hgaps : findHeightGaps heights (3/2) with
  | nil => rw [hgaps] at hmem; simp at hmem
  | cons g gs =>
      rw [hgaps] at hmem
      refine le_trans (min_le_right _ _) ?_
      rcases List.mem_cons.mp hmem with heq | hmm
      · rw [heq]; exact (foldl_min_le gs _).1
      · exact (foldl_min_le gs g).2 _ hmm

theorem claim_C7_witness :
    1 ≤ 80 ∧ 80 < (sortAsc gapCexHeights).length
    ∧ 0 < (sortAsc gapCexHeights).getD (80 - 1) 0
    ∧ (3/2 : ℚ) ≤ (sortAsc gapCexHeights).getD 80 0
        / (sortAsc gapCexHeights).getD (80 - 1) 0
    ∧ effectiveCutoff gapCexHeights (85/100)
        ≤ (sortAsc gapCexHeights).getD 80 0 := by
  set_option maxRecDepth 100000 in
  exact ⟨by decide, by with_unfolding_all decide, by with_unfolding_all decide,
    by with_unfolding_all decide,
    claim_C7 gapCexHeights (85/100) 80 (by decide)
      (by with_unfolding_all decide) (by with_unfolding_all decide)
      (by with_unfolding_all decide)⟩

/-! ## TextRank (src/lib/utils/nlp.ts lines 2-46) -/

/-- Vocabulary construction of `textRank`: first-seen order, keeping tokens
    that are nonempty with length > 1 (the JS `Map` keyed by token with
    value `vocab.size` makes the key list carry the indices). -/
def buildVocab (tokensList : List (List String)) : List String :=
  tokensList.foldl (fun vocab seq =>
    seq.foldl (fun vocab t =>
      if t ≠ "" ∧ 1 < t.length ∧ t ∉ vocab then vocab ++ [t] else vocab)
      vocab) []

/-- `vocab.get(t)`: the index of `t` in the vocabulary, if present. -/
def vocabIdx (vocab : List String) (t : String) : Option Nat :=
  vocab.findIdx? (fun v => v = t)

/-- `adj[a].add(b)`: adjacency sets are modeled as insertion-ordered
    duplicate-free lists. -/
def addNbr (adj : List (List Nat)) (a b : Nat) : List (List Nat) :=
  let s := adj.getD a []
  if b ∈ s then adj else adj.set a (s ++ [b])

/-- The co-occurrence edges of `textRank` (nlp.ts lines 14-26): for every
    sequence, every position `i`, and every `j` in the following window,
    connect the two vocabulary indices in both directions. -/
def buildAdj (tokensList : List (List String)) (vocab : List String)
    (windowSize : Nat) : List (List Nat) :=
  tokensList.foldl (fun adj seq =>
    (List.range seq.length).foldl (fun adj i =>
      match vocabIdx vocab (seq.getD i "") with
      | none => adj
      | some a =>
          (List.range' (i + 1)
              (Nat.min seq.length (i + 1 + windowSize) - (i + 1))).foldl
            (fun adj j =>
              match vocabIdx vocab (seq.getD j "") with
              | none => adj
              | some b => if a = b then adj else addNbr (addNbr adj a b) b a)
            adj) adj)
    (List.replicate vocab.length [])

/-- One score iteration of `textRank` (nlp.ts lines 31-40): start every
    entry at the uniform restart mass `1 − d`, then add, for every node
    with neighbors, `d` times the degree-normalized neighbor scores
    (`adj[j].size || 1` guards a zero degree with 1). -/
def trStep (adj : List (List Nat)) (d : ℚ) (scores : List ℚ) : List ℚ :=
  (List.range adj.length).foldl (fun next i =>
    if (adj.getD i []).length = 0 then next
    else next.set i (next.getD i 0
      + d * ((adj.getD i []).foldl (fun sum j =>
          sum + scores.getD j 0
            / (if (adj.getD j []).length = 0 then 1
               else ((adj.getD j []).length : ℚ))) 0)))
    (List.replicate adj.length (1 - d))

def trIterate (adj : List (List Nat)) (d : ℚ) : Nat → List ℚ → List ℚ
  | 0, scores => scores
  | it + 1, scores => trIterate adj d it (trStep adj d scores)

/-- `scored.sort((a,b) => b.score - a.score)`: stable descending sort by
    score, modeled by insertion sort. -/
def sortByScoreDesc (l : List (String × ℚ)) : List (String × ℚ) :=
  List.insertionSort (fun a b => b.2 ≤ a.2) l

/-- `textRank` (nlp.ts lines 2-46).  The `posLists` parameter is accepted
    and unused, as in the source. -/
def textRank (tokensList posLists : List (List String)) (windowSize : Nat)
    (d : ℚ) (iterations : Nat) : List (String × ℚ) :=
  let vocab := buildVocab tokensList
  let n := vocab.length
  if n = 0 then []
  else
    let adj := buildAdj tokensList vocab windowSize
    let scores := trIterate adj d iterations (List.replicate n 1)
    sortByScoreDesc (vocab.zip scores)

/-- The labeler's candidate-scoring call — cluster.worker.impl.ts line 910:
    `textRank(tokenBuckets, tokenPosByLeaf, 3, 0.85, 18)`. -/
def labelerRankedTokens (tokenBuckets tokenPosByLeaf : List (List String)) :
    List (String × ℚ) :=
  textRank tokenBuckets tokenPosByLeaf 3 (17/20) 18

/-- The neighbor-score sum accumulated for node `i` in one iteration. -/
def nbrSum (adj : List (List Nat)) (scores : List ℚ) (i : Nat) : ℚ :=
  (adj.getD i []).foldl (fun sum j =>
    sum + scores.getD j 0
      / (if (adj.getD j []).length = 0 then 1
         else ((adj.getD j []).length : ℚ))) 0

theorem foldl_write_once (g : Nat → ℚ → ℚ) (cond : Nat → Prop)
    [DecidablePred cond] :
    ∀ (L : List Nat) (next : List ℚ) (i : Nat), L.Nodup → i < next.length →
      (L.foldl (fun next k =>
          if cond k then next.set k (g k (next.getD k 0)) else next)
        next).getD i 0
      = if i ∈ L ∧ cond i then g i (next.getD i 0) else next.getD i 0 := by
  intro L
  induction L with
  | nil => intro next i _ _; simp
  | cons k L ih =>
      intro next i hnd hi
      rw [List.foldl_cons]
      have hnd' := (List.nodup_cons.mp hnd).2
      have hk := (List.nodup_cons.mp hnd).1
      by_cases hik : i = k
      · subst hik
        by_cases hc : cond i
        · rw [if_pos hc, ih _ _ hnd' (by rw [List.length_set]; exact hi),
            if_neg (fun hmem => hk hmem.1), getD_set,
            if_pos ⟨rfl, hi⟩, if_pos ⟨List.mem_cons_self i L, hc⟩]
        · rw [if_neg hc, ih _ _ hnd' hi,
            if_neg (fun hmem => hk hmem.1),
            if_neg (fun hmem => hc hmem.2)]
      · have hbody : ∀ m : List ℚ,
            ((if cond k then m.set k (g k (m.getD k 0)) else m) : List ℚ).getD i 0
              = m.getD i 0 := by
          intro m
          split
          · rw [getD_set, if_neg (fun hc' => hik hc'.1.symm)]
          · rfl
        have hlen : ((if cond k then next.set k (g k (next.getD k 0)) else next) :
            List ℚ).length = next.length := by
          split
          · exact List.length_set _ _ _
          · rfl
        rw [ih _ _ hnd' (by rw [hlen]; exact hi), hbody]
        by_cases hmem : i ∈ L ∧ cond i
        · rw [if_pos hmem, if_pos ⟨List.mem_cons_of_mem k hmem.1, hmem.2⟩]
        · rw [if_neg hmem,
            if_neg (fun hc' => hmem ⟨(List.mem_cons.mp hc'.1).resolve_left hik, hc'.2⟩)]

/-- One `textRank` iteration in closed form: every node restarts at `1 − d`;
    a node with neighbors additionally receives `d` times its
    degree-normalized neighbor-score sum. -/
theorem trStep_getD (adj : List (List Nat)) (d : ℚ) (scores : List ℚ)
    (i : Nat) (hi : i < adj.length) :
    (trStep adj d scores).getD i 0
      = if (adj.getD i []).length = 0 then 1 - d
        else (1 - d) + d * nbrSum adj scores i := by
  unfold trStep
  rw [show (fun (next : List ℚ) (i : Nat) =>
      if (adj.getD i []).length = 0 then next
      else next.set i (next.getD i 0
        + d * ((adj.getD i []).foldl (fun sum j =>
            sum + scores.getD j 0
              / (if (adj.getD j []).length = 0 then 1
                 else ((adj.getD j []).length : ℚ))) 0)))
    = (fun (next : List ℚ) (k : Nat) =>
      if ¬ (adj.getD k []).length = 0
      then next.set k (next.getD k 0 + d * nbrSum adj scores k)
      else next) from ?_]
  · rw [foldl_write_once (fun k v => v + d * nbrSum adj scores k)
      (fun k => ¬ (adj.getD k []).length = 0) (List.range adj.length)
      _ i (List.nodup_range _) (by rw [List.length_replicate]; exact hi)]
    rw [getD_replicate, if_pos hi]
    by_cases hdeg : (adj.getD i []).length = 0
    · rw [if_neg (fun hc => hc.2 hdeg), if_pos hdeg]
    · rw [if_pos ⟨List.mem_range.mpr hi, hdeg⟩, if_neg hdeg]
  · funext next k
    rw [nbrSum]
    by_cases hdeg : (adj.getD k []).length = 0
    · rw [if_pos hdeg, if_neg (fun hc => hc hdeg)]
    · rw [if_neg hdeg, if_pos hdeg]

/-- The two-sequence bucket list whose co-occurrence graph is the path
    `aa — bb — cc`; its scores keep changing with the iteration count. -/
def trCexBuckets : List (List String) := [["aa", "bb"], ["bb", "cc"]]

def trCexPos : List (List String) := [[], []]

/-- Claim C6, as stated: the labeler's scoring runs 20 iterations.
    Refuted: the call site passes 18, and on the path graph `aa—bb—cc`
    the 18-iteration scores differ from the 20-iteration scores. -/
theorem claim_C6_counterexample :
    labelerRankedTokens trCexBuckets trCexPos
      ≠ textRank trCexBuckets trCexPos 3 (17/20) 20 := by
  set_option maxRecDepth 40000 in
  with_unfolding_all decide

/-- Claim C6, amended: the labeler runs the PageRank-style scoring with
    damping 0.85 and uniform restart mass `1 − d` (see `trStep_getD`), but
    with exactly 18 iterations — 20 is only the unused default of
    `textRank`'s signature. -/
theorem claim_C6 (tokenBuckets tokenPosByLeaf : List (List String))
    (adj : List (List Nat)) (scores : List ℚ) (i : Nat)
    (hi : i < adj.length) :
    labelerRankedTokens tokenBuckets tokenPosByLeaf
      = textRank tokenBuckets tokenPosByLeaf 3 (17/20) 18
    ∧ (trStep adj (17/20) scores).getD i 0
        = if (adj.getD i []).length = 0 then 1 - 17/20
          else (1 - 17/20) + (17/20) * nbrSum adj scores i :=
  ⟨rfl, trStep_getD adj (17/20) scores i hi⟩

theorem claim_C6_witness :
    0 < ([[1], [0]] : List (List Nat)).length
    ∧ labelerRankedTokens trCexBuckets trCexPos
        = textRank trCexBuckets trCexPos 3 (17/20) 18
    ∧ (trStep [[1], [0]] (17/20) [1, 1]).getD 0 0
        = if (([[1], [0]] : List (List Nat)).getD 0 []).length = 0
          then 1 - 17/20
          else (1 - 17/20) + (17/20) * nbrSum [[1], [0]] [1, 1] 0 :=
  ⟨by decide, (claim_C6 trCexBuckets trCexPos [[1], [0]] [1, 1] 0
      (by decide)).1,
    (claim_C6 trCexBuckets trCexPos [[1], [0]] [1, 1] 0 (by decide)).2⟩

/-! ## Cluster trees and the tree materializer
    (cluster.worker.impl.ts lines 849-1042).

    A node of the ml-hclust result is duck-typed in the source: it may carry
    a numeric `height` (with `distance`/`dist` aliases collapsed into the
    one optional field), may carry a leaf `index`, and may carry children.
    The library itself is external; its result trees are inputs here. -/

inductive CNode where
  | mk (height : Option ℚ) (index : Option Int) (children : List CNode)
deriving Repr

def CNode.heightOf : CNode → Option ℚ
  | .mk h _ _ => h

def CNode.indexOf : CNode → Option Int
  | .mk _ idx _ => idx

def CNode.childrenOf : CNode → List CNode
  | .mk _ _ cs => cs

/-- The exported tree shape (`TaxonomyNode`): optional fields are `none`
    when the source object literal omits them. -/
inductive TNode where
  | mk (id : Option Nat) (name : String) (value : Option Nat)
       (height : Option ℚ) (fullText : Option String)
       (sampleLeaves : List String) (clusterKeywords : Option (List String))
       (clusterLabel : Option String) (children : List TNode) (type : String)
deriving Repr

def TNode.idOf : TNode → Option Nat
  | .mk i _ _ _ _ _ _ _ _ _ => i

def TNode.nameOf : TNode → String
  | .mk _ n _ _ _ _ _ _ _ _ => n

def TNode.heightOf : TNode → Option ℚ
  | .mk _ _ _ h _ _ _ _ _ _ => h

def TNode.sampleLeavesOf : TNode → List String
  | .mk _ _ _ _ _ s _ _ _ _ => s

def TNode.keywordsOf : TNode → Option (List String)
  | .mk _ _ _ _ _ _ k _ _ _ => k

def TNode.labelOf : TNode → Option String
  | .mk _ _ _ _ _ _ _ l _ _ => l

def TNode.childrenOf : TNode → List TNode
  | .mk _ _ _ _ _ _ _ _ c _ => c

def TNode.typeOf : TNode → String
  | .mk _ _ _ _ _ _ _ _ _ t => t

/-- `Number.prototype.toFixed(digits)` on an exact rational: round to the
    nearest multiple of `10^(−digits)`, ties away from the smaller value
    (the ECMA "pick the larger n" rule), then print with a fixed number of
    decimals.  (For negative inputs rounding to zero JS prints "-0.00…";
    merge heights are nonnegative, so that corner is not modeled.) -/
def toFixedQ (digits : Nat) (q : ℚ) : String :=
  let p : ℤ := ⌊q * ((10:ℚ) ^ digits) + 1/2⌋
  let sign := if p < 0 then "-" else ""
  let ipart := p.natAbs / 10 ^ digits
  let fpart := p.natAbs % 10 ^ digits
  let fstr := toString fpart
  let fpad :=
    if fstr.length < digits then
      String.mk (List.replicate (digits - fstr.length) '0') ++ fstr
    else fstr
  sign ++ toString ipart ++ (if digits = 0 then "" else "." ++ fpad)

/-- First character of a POS tag against a set of letters; models the
    anchored case-insensitive regex tests of the labeler (`/^N|^A/i` and
    friends), which the source only applies to single-letter prefixes. -/
def startsWith1 (chars : List Char) (s : String) : Bool :=
  match s.data with
  | [] => false
  | ch :: _ => ch ∈ chars

/-- First POS found for candidate token `c`: scan leaf buckets in order,
    and in the first bucket containing `c` read the POS at the token's
    index (`'' `when the POS array is shorter), as in worker lines
    915-925. -/
def findFirstPos (buckets poses : List (List String)) (c : String) :
    Option String :=
  match buckets.findIdx? (fun b => c ∈ b) with
  | none => none
  | some li => some ((poses.getD li []).getD ((buckets.getD li []).indexOf c) "")

/-- The keyword/label computation of `convertToD3`'s cluster branch
    (worker lines 909-949), taking the per-leaf token buckets and POS lists
    as input. -/
def clusterKeywordsAndLabel (buckets poses : List (List String)) :
    List String × Option String :=
  let candidates := (labelerRankedTokens buckets poses).map (·.1)
  let nounCandidates := candidates.filter (fun c =>
    match findFirstPos buckets poses c with
    | some p => startsWith1 ['N', 'n', 'A', 'a'] p
    | none => false)
  let finalCandidates := if nounCandidates.isEmpty then candidates
    else nounCandidates
  let keywords := finalCandidates.take 3
  let label :=
    if keywords.isEmpty then none
    else some (String.intercalate " / " (keywords.map (fun k =>
      let fp := (findFirstPos buckets poses k).getD ""
      if fp ≠ "" ∧ ¬ startsWith1 ['N', 'n'] fp = true then
        if startsWith1 ['V', 'v'] fp then k ++ " (to " ++ k ++ ")"
        else if startsWith1 ['A', 'a'] fp then k ++ " (adj)"
        else k ++ " (" ++ fp ++ ")"
      else k)))
  (keywords, label)

mutual

/-- `collectSampleLeaves` (worker lines 857-867): depth-first, stops once 5
    labels are collected, pushes the label of every in-range leaf. -/
def sampleGo (labels : List String) : CNode → List String → List String
  | CNode.mk _ idx cs, out =>
    if 5 ≤ out.length then out
    else if ¬ cs.isEmpty then sampleList labels cs out
    else match idx with
      | some i =>
          if 0 ≤ i ∧ i < (labels.length : Int) then
            out ++ [labels.getD i.toNat ""]
          else out
      | none => out

def sampleList (labels : List String) : List CNode → List String →
    List String
  | [], out => out
  | n :: ns, out => sampleList labels ns (sampleGo labels n out)

end

mutual

/-- The `collectAll` closure of `convertToD3` (worker lines 881-885): all
    in-range leaf labels, depth-first. -/
def allLeaves (labels : List String) : CNode → List String
  | CNode.mk _ idx cs =>
    if ¬ cs.isEmpty then allLeavesList labels cs
    else match idx with
      | some i =>
          if 0 ≤ i ∧ i < (labels.length : Int) then [labels.getD i.toNat ""]
          else []
      | none => []

def allLeavesList (labels : List String) : List CNode → List String
  | [] => []
  | n :: ns => allLeaves labels n ++ allLeavesList labels ns

end

mutual

/-- `convertToD3` (worker lines 855-992).  The wink-nlp retokenization of a
    leaf text (normals and POS tags) is external and enters as the oracle
    `tok`; the worker-global node-id counter is threaded explicitly
    (`nextWorkerNodeId` is `c ↦ c+1`, returning the new value), so the
    function maps a counter state to the produced node and the new counter
    state. -/
def convertToD3 (labels : List String)
    (tok : String → List String × List String) :
    CNode → Nat → TNode × Nat
  | CNode.mk h idx cs, c =>
    if ¬ cs.isEmpty then
      let conv := convertList labels tok cs c
      let leaves := allLeaves labels (CNode.mk h idx cs)
      let buckets := leaves.map (fun t =>
        (tok t).1.filter (fun s => s ≠ "" ∧ 1 < s.length))
      let poses := leaves.map (fun t => (tok t).2)
      let kw := clusterKeywordsAndLabel buckets poses
      (TNode.mk (some (conv.2 + 1))
        ("Cluster (H:" ++ (match h with
          | some hv => toFixedQ 2 hv
          | none => "N/A") ++ ")")
        none h none
        (sampleGo labels (CNode.mk h idx cs) [])
        (some kw.1) kw.2 conv.1 "cluster", conv.2 + 1)
    else
      match idx with
      | some i =>
          if i < 0 ∨ (labels.length : Int) ≤ i then
            (TNode.mk none ("[Error: Index " ++ toString i ++ "]") (some 1)
              none
              (some "Invalid index from clustering. Data may be too sparse or uniform.")
              [] none none [] "leaf", c)
          else
            let fullText := labels.getD i.toNat ""
            let name := if 40 < fullText.length then fullText.take 37 ++ "..."
              else fullText
            (TNode.mk (some (c + 1)) name (some 1) none (some fullText)
              [fullText] none none [] "leaf", c + 1)
      | none =>
          (TNode.mk none "[Malformed Node]" (some 1) none
            (some "Node structure missing index and children.")
            [] none none [] "leaf", c)

def convertList (labels : List String)
    (tok : String → List String × List String) :
    List CNode → Nat → List TNode × Nat
  | [], c => ([], c)
  | n :: ns, c =>
      let p := convertToD3 labels tok n c
      let ps := convertList labels tok ns p.2
      (p.1 :: ps.1, ps.2)

end

mutual

/-- `collectSubtreesAtCutoff` (worker lines 1001-1019): a node at or below
    the cutoff (missing heights read as 0) becomes a subtree root; higher
    nodes recurse into their children; childless nodes above the cutoff are
    kept as roots too. -/
def collectSubtrees (cutoffHeight : ℚ) : CNode → List CNode
  | CNode.mk h idx cs =>
    if h.getD 0 ≤ cutoffHeight then [CNode.mk h idx cs]
    else if ¬ cs.isEmpty then collectSubtreesList cutoffHeight cs
    else [CNode.mk h idx cs]

def collectSubtreesList (cutoffHeight : ℚ) : List CNode → List CNode
  | [] => []
  | n :: ns =>
      collectSubtrees cutoffHeight n ++ collectSubtreesList cutoffHeight ns

end

/-- `convertToD3WithCutoff` (worker lines 999-1042): more than one
    surviving subtree yields a synthesized root whose `height` field is set
    to the cutoff height, whose name and label carry the subtree count, and
    whose children are the converted subtrees; otherwise the unmodified
    `convertToD3` output. -/
def convertToD3WithCutoff (labels : List String)
    (tok : String → List String × List String) (node : CNode)
    (cutoffHeight : ℚ) (c : Nat) : TNode × Nat :=
  let subtrees := collectSubtrees cutoffHeight node
  if 1 < subtrees.length then
    let conv := convertList labels tok subtrees c
    (TNode.mk (some (conv.2 + 1))
      ("Root (" ++ toString subtrees.length ++ " top-level clusters)")
      none (some cutoffHeight) none
      ((conv.1.map TNode.sampleLeavesOf).flatten.take 5)
      (some [])
      (some (toString subtrees.length ++ " clusters at cutoff H="
        ++ toFixedQ 3 cutoffHeight))
      conv.1 "cluster", conv.2 + 1)
  else convertToD3 labels tok node c

mutual

/-- Erase every node id of an exported tree (everything except the ids is a
    function of the input alone). -/
def stripId : TNode → TNode
  | TNode.mk _ name value height fullText sample keywords label children ty =>
      TNode.mk none name value height fullText sample keywords label
        (stripIdList children) ty

def stripIdList : List TNode → List TNode
  | [] => []
  | t :: ts => stripId t :: stripIdList ts

end

mutual

/-- Number of leaves (childless nodes) of an exported tree. -/
def tnodeLeafCount : TNode → Nat
  | TNode.mk _ _ _ _ _ _ _ _ children _ =>
    if children.isEmpty then 1 else tnodeLeafCountList children

def tnodeLeafCountList : List TNode → Nat
  | [] => 0
  | t :: ts => tnodeLeafCount t + tnodeLeafCountList ts

end

mutual

/-- Leaf indices of a cluster tree, in depth-first order, discriminating
    children-versus-index exactly as `convertToD3` does. -/
def leafIndices : CNode → List Int
  | CNode.mk _ idx cs =>
    if ¬ cs.isEmpty then leafIndicesList cs
    else match idx with
      | some i => [i]
      | none => []

def leafIndicesList : List CNode → List Int
  | [] => []
  | n :: ns => leafIndices n ++ leafIndicesList ns

end

mutual

/-- A cluster tree is well formed when every childless node carries an
    index (no “malformed” nodes). -/
def isWellFormed : CNode → Bool
  | CNode.mk _ idx cs => if cs.isEmpty then idx.isSome else wfList cs

def wfList : List CNode → Bool
  | [] => true
  | n :: ns => isWellFormed n && wfList ns

end

/-- Strong induction over cluster trees (children are reached through the
    nested list). -/
theorem CNode.strongInd (P : CNode → Prop)
    (h : ∀ ht idx cs, (∀ c ∈ cs, P c) → P (CNode.mk ht idx cs)) :
    ∀ n, P n
  | CNode.mk ht idx cs => h ht idx cs (fun c hc =>
      have : sizeOf c < sizeOf (CNode.mk ht idx cs) := by
        have h1 := List.sizeOf_lt_of_mem hc
        simp only [CNode.mk.sizeOf_spec]
        omega
      CNode.strongInd P h c)
termination_by n => sizeOf n

theorem stripIdList_convertList (labels : List String)
    (tok : String → List String × List String) :
    ∀ (cs : List CNode),
      (∀ x ∈ cs, ∀ c c' : Nat,
        stripId (convertToD3 labels tok x c).1
          = stripId (convertToD3 labels tok x c').1) →
      ∀ c c' : Nat,
        stripIdList (convertList labels tok cs c).1
          = stripIdList (convertList labels tok cs c').1 := by
  intro cs
  induction cs with
  | nil => intro _ c c'; rfl
  | cons n ns ih =>
      intro hcs c c'
      simp only [convertList, stripIdList]
      rw [hcs n (List.mem_cons_self n ns) c c',
        ih (fun x hx => hcs x (List.mem_cons_of_mem n hx)) _ _]

/-- Claim C1, amended: the exported tree is a function of the input and the
    initial counter state alone, and everything except the node ids is
    independent of the counter — two runs from different counter states
    yield trees identical after erasing ids.  Byte-identical output
    *including ids* holds only between runs starting from equal counter
    states; the worker's counter is process-global and never reset, so two
    successive runs in one process differ exactly in their ids. -/
theorem stripId_convert (labels : List String)
    (tok : String → List String × List String) :
    ∀ t : CNode, ∀ c c' : Nat,
      stripId (convertToD3 labels tok t c).1
        = stripId (convertToD3 labels tok t c').1 := by
  intro t
  induction t using CNode.strongInd with
  | h ht idx cs ih =>
      intro c c'
      by_cases hcs : cs.isEmpty
      · simp only [convertToD3, hcs, not_true, if_false]
        cases idx with
        | some i =>
            dsimp only
            by_cases hrange : i < 0 ∨ (labels.length : Int) ≤ i
            · rw [if_pos hrange, if_pos hrange]
            · rw [if_neg hrange, if_neg hrange]
              simp only [stripId, stripIdList]
        | none => dsimp only
      · simp only [convertToD3]
        rw [if_pos hcs, if_pos hcs]
        dsimp only
        simp only [stripId, TNode.mk.injEq, true_and, and_true]
        exact stripIdList_convertList labels tok cs
          (fun x hx c1 c2 => ih x hx c1 c2) c c'

theorem claim_C1 (labels : List String)
    (tok : String → List String × List String) (t : CNode) (c c' : Nat) :
    stripId (convertToD3 labels tok t c).1
      = stripId (convertToD3 labels tok t c').1 :=
  stripId_convert labels tok t c c'

/-- A fixed trivial tokenizer oracle for concrete runs. -/
def tok0 : String → List String × List String := fun _ => ([], [])

/-- The single-leaf cluster tree used for concrete id-counter runs. -/
def idCexTree : CNode := CNode.mk none (some 0) []

/-- Claim C1, as stated ("byte-identical output trees, including the
    numeric node ids, across two successive runs in one worker process"),
    is refuted: the first run emits node id 1, and the second run — whose
    counter continues from the first — emits node id 2; the trees differ. -/
theorem claim_C1_counterexample :
    TNode.idOf (convertToD3 ["a"] tok0 idCexTree 0).1 = some 1
    ∧ TNode.idOf (convertToD3 ["a"] tok0 idCexTree
        ((convertToD3 ["a"] tok0 idCexTree 0).2)).1 = some 2
    ∧ (convertToD3 ["a"] tok0 idCexTree 0).1
        ≠ (convertToD3 ["a"] tok0 idCexTree
            ((convertToD3 ["a"] tok0 idCexTree 0).2)).1 := by
  have h1 : (convertToD3 ["a"] tok0 idCexTree 0)
      = (TNode.mk (some 1) "a" (some 1) none (some "a") ["a"] none none []
          "leaf", 1) := by
    simp only [convertToD3, idCexTree]
    norm_num [show ("a".length = 1) from rfl]
  have h2 : (convertToD3 ["a"] tok0 idCexTree 1)
      = (TNode.mk (some 2) "a" (some 1) none (some "a") ["a"] none none []
          "leaf", 2) := by
    simp only [convertToD3, idCexTree]
    norm_num [show ("a".length = 1) from rfl]
  refine ⟨by rw [h1]; rfl, ?_, ?_⟩
  · rw [show (convertToD3 ["a"] tok0 idCexTree 0).2 = 1 from by rw [h1], h2]
    rfl
  · rw [show (convertToD3 ["a"] tok0 idCexTree 0).2 = 1 from by rw [h1], h1, h2]
    intro hcontra
    simpa [TNode.idOf] using congrArg TNode.idOf hcontra

/-- The two-leaf tree with a root merge height of 1 — pruning it at cutoff
    0.5 leaves two surviving subtrees. -/
def cutCexTree : CNode :=
  CNode.mk (some 1) none
    [CNode.mk (some 0) (some 0) [], CNode.mk (some 0) (some 1) []]

/-- Claim C8, as stated ("the pseudo-root carries no merge height of its
    own — only an explanatory count label and the surviving subtrees"), is
    refuted: the synthesized root's `height` field is set to the cutoff
    height (0.5 here), not left empty. -/
theorem claim_C8_counterexample :
    collectSubtrees (1/2) cutCexTree
      = [CNode.mk (some 0) (some 0) [], CNode.mk (some 0) (some 1) []]
    ∧ TNode.heightOf
        (convertToD3WithCutoff ["a", "b"] tok0 cutCexTree (1/2) 0).1
      = some (1/2)
    ∧ TNode.heightOf
        (convertToD3WithCutoff ["a", "b"] tok0 cutCexTree (1/2) 0).1
      ≠ none := by
  have hc : collectSubtrees (1/2) cutCexTree
      = [CNode.mk (some 0) (some 0) [], CNode.mk (some 0) (some 1) []] := by
    simp only [cutCexTree, collectSubtrees, collectSubtreesList]
    norm_num
  have hh : TNode.heightOf
      (convertToD3WithCutoff ["a", "b"] tok0 cutCexTree (1/2) 0).1
      = some (1/2) := by
    simp only [convertToD3WithCutoff, hc]
    norm_num [TNode.heightOf]
  exact ⟨hc, hh, by rw [hh]; exact Option.some_ne_none _⟩

/-- Claim C8, amended: whenever cutoff pruning leaves more than one
    surviving subtree root, the synthesized pseudo-root carries the *cutoff
    height* in its `height` field (not a merge height of the clustering),
    the explanatory count label in its name and `clusterLabel`, empty
    cluster keywords, and the converted surviving subtrees as children. -/
theorem claim_C8 (labels : List String)
    (tok : String → List String × List String) (t : CNode) (cutoff : ℚ)
    (c : Nat) (hmulti : 1 < (collectSubtrees cutoff t).length) :
    TNode.heightOf (convertToD3WithCutoff labels tok t cutoff c).1
      = some cutoff
    ∧ TNode.nameOf (convertToD3WithCutoff labels tok t cutoff c).1
      = "Root (" ++ toString (collectSubtrees cutoff t).length
          ++ " top-level clusters)"
    ∧ TNode.labelOf (convertToD3WithCutoff labels tok t cutoff c).1
      = some (toString (collectSubtrees cutoff t).length
          ++ " clusters at cutoff H=" ++ toFixedQ 3 cutoff)
    ∧ TNode.keywordsOf (convertToD3WithCutoff labels tok t cutoff c).1
      = some []
    ∧ TNode.childrenOf (convertToD3WithCutoff labels tok t cutoff c).1
      = (convertList labels tok (collectSubtrees cutoff t) c).1 := by
  simp only [convertToD3WithCutoff]
  rw [if_pos hmulti]
  exact ⟨rfl, rfl, rfl, rfl, rfl⟩

theorem claim_C8_witness :
    1 < (collectSubtrees (1/2) cutCexTree).length
    ∧ TNode.heightOf
        (convertToD3WithCutoff ["a", "b"] tok0 cutCexTree (1/2) 0).1
      = some (1/2) := by
  have hc : collectSubtrees (1/2) cutCexTree
      = [CNode.mk (some 0) (some 0) [], CNode.mk (some 0) (some 1) []] := by
    simp only [cutCexTree, collectSubtrees, collectSubtreesList]
    norm_num
  have hlen : 1 < (collectSubtrees (1/2) cutCexTree).length := by
    rw [hc]; norm_num
  exact ⟨hlen,
    (claim_C8 ["a", "b"] tok0 cutCexTree (1/2) 0 hlen).1⟩

/-! ### Leaf-count invariants (claim C9) -/

theorem wfList_mem : ∀ (cs : List CNode), wfList cs = true →
    ∀ x ∈ cs, isWellFormed x = true := by
  intro cs
  induction cs with
  | nil => intro _ x hx; simp at hx
  | cons n ns ih =>
      intro h x hx
      rw [wfList, Bool.and_eq_true] at h
      rcases List.mem_cons.mp hx with rfl | hx
      · exact h.1
      · exact ih h.2 x hx

theorem leafIndicesList_eq_flatten : ∀ cs : List CNode,
    leafIndicesList cs = (cs.map leafIndices).flatten := by
  intro cs
  induction cs with
  | nil => rfl
  | cons n ns ih => simp only [leafIndicesList, List.map_cons,
      List.flatten_cons, ih]

theorem mem_leafIndicesList {i : Int} {x : CNode} {cs : List CNode}
    (hx : x ∈ cs) (hi : i ∈ leafIndices x) : i ∈ leafIndicesList cs := by
  rw [leafIndicesList_eq_flatten]
  exact List.mem_flatten.mpr ⟨leafIndices x, List.mem_map_of_mem _ hx, hi⟩

theorem convertList_leafCount (labels : List String)
    (tok : String → List String × List String) :
    ∀ (cs : List CNode),
      (∀ x ∈ cs, ∀ c : Nat,
        tnodeLeafCount (convertToD3 labels tok x c).1
          = (leafIndices x).length) →
      ∀ c : Nat, tnodeLeafCountList (convertList labels tok cs c).1
        = (leafIndicesList cs).length := by
  intro cs
  induction cs with
  | nil => intro _ c; rfl
  | cons n ns ih =>
      intro h c
      simp only [convertList, tnodeLeafCountList, leafIndicesList,
        List.length_append]
      rw [h n (List.mem_cons_self n ns) c,
        ih (fun x hx => h x (List.mem_cons_of_mem n hx)) _]

theorem convertList_len (labels : List String)
    (tok : String → List String × List String) :
    ∀ (cs : List CNode) (c : Nat),
      (convertList labels tok cs c).1.length = cs.length := by
  intro cs
  induction cs with
  | nil => intro c; rfl
  | cons n ns ih => intro c; simp only [convertList, List.length_cons, ih]

/-- A list with positive length is not `isEmpty`. -/
theorem isEmpty_false_of_length_pos {α : Type _} (l : List α)
    (h : 0 < l.length) : l.isEmpty = false := by
  cases l with
  | nil => simp at h
  | cons a l => rfl

theorem leafIndices_mk (ht : Option ℚ) (idx : Option Int)
    (cs : List CNode) :
    leafIndices (CNode.mk ht idx cs)
      = if ¬ cs.isEmpty then leafIndicesList cs
        else match idx with
          | some i => [i]
          | none => [] := by
  rw [leafIndices.eq_def]

theorem collectSubtrees_mk (cutoff : ℚ) (ht : Option ℚ) (idx : Option Int)
    (cs : List CNode) :
    collectSubtrees cutoff (CNode.mk ht idx cs)
      = if ht.getD 0 ≤ cutoff then [CNode.mk ht idx cs]
        else if ¬ cs.isEmpty then collectSubtreesList cutoff cs
        else [CNode.mk ht idx cs] := by
  rw [collectSubtrees.eq_def]

/-- Unpruned leaf count: for a well-formed tree whose leaf indices are all
    in label range, the exported tree has exactly one leaf per cluster-tree
    leaf. -/
theorem convert_leafCount (labels : List String)
    (tok : String → List String × List String) :
    ∀ t : CNode, isWellFormed t = true →
      (∀ i ∈ leafIndices t, 0 ≤ i ∧ i < (labels.length : Int)) →
      ∀ c : Nat, tnodeLeafCount (convertToD3 labels tok t c).1
        = (leafIndices t).length := by
  intro t
  induction t using CNode.strongInd with
  | h ht idx cs ih =>
      intro hwf hrange c
      by_cases hcs : cs.isEmpty
      · rw [isWellFormed, if_pos hcs] at hwf
        obtain ⟨i, rfl⟩ := Option.isSome_iff_exists.mp hwf
        have hleaf : leafIndices (CNode.mk ht (some i) cs) = [i] := by
          rw [leafIndices_mk, if_neg (by simp [hcs])]
        have hr := hrange i (by rw [hleaf]; exact List.mem_singleton.mpr rfl)
        simp only [convertToD3]
        rw [if_neg (by simp [hcs])]
        rw [if_neg (by omega), hleaf]
        simp [tnodeLeafCount]
      · have hwf' : wfList cs = true := by
          rw [isWellFormed, if_neg hcs] at hwf
          exact hwf
        have hleaf : leafIndices (CNode.mk ht idx cs) = leafIndicesList cs := by
          rw [leafIndices_mk, if_pos (by simp [hcs])]
        simp only [convertToD3]
        rw [if_pos (by simp [hcs])]
        dsimp only
        rw [tnodeLeafCount]
        have hne : ((convertList labels tok cs c).1.isEmpty) = false := by
          apply isEmpty_false_of_length_pos
          rw [convertList_len]
          cases cs with
          | nil => simp at hcs
          | cons a l => simp
        rw [if_neg (by rw [hne]; exact Bool.false_ne_true), hleaf]
        exact convertList_leafCount labels tok cs
          (fun x hx cx => ih x hx (wfList_mem cs hwf' x hx)
            (fun i hi => hrange i (hleaf ▸ mem_leafIndicesList hx hi)) cx) c

theorem collectList_partition (cutoff : ℚ) (cs : List CNode)
    (hall : ∀ x ∈ cs,
      ((collectSubtrees cutoff x).map leafIndices).flatten = leafIndices x) :
    ((collectSubtreesList cutoff cs).map leafIndices).flatten
      = leafIndicesList cs := by
  induction cs with
  | nil => rfl
  | cons n ns ih =>
      simp only [collectSubtreesList, leafIndicesList, List.map_append,
        List.flatten_append]
      rw [hall n (List.mem_cons_self n ns),
        ih (fun x hx => hall x (List.mem_cons_of_mem n hx))]

/-- Cutoff pruning partitions the leaves: the leaf indices of the collected
    subtrees, concatenated in order, are exactly the leaf indices of the
    tree. -/
theorem collect_partition (cutoff : ℚ) :
    ∀ t : CNode,
      ((collectSubtrees cutoff t).map leafIndices).flatten = leafIndices t := by
  intro t
  induction t using CNode.strongInd with
  | h ht idx cs ih =>
      rw [collectSubtrees_mk]
      by_cases htop : (ht.getD 0) ≤ cutoff
      · rw [if_pos htop]
        simp
      · rw [if_neg htop]
        by_cases hcs : cs.isEmpty
        · rw [if_neg (by simp [hcs])]
          simp
        · rw [if_pos (by simp [hcs]), leafIndices_mk,
            if_pos (by simp [hcs])]
          exact collectList_partition cutoff cs ih

theorem collectList_wf (cutoff : ℚ) (cs : List CNode)
    (hwf : wfList cs = true)
    (hall : ∀ x ∈ cs, isWellFormed x = true →
      ∀ s ∈ collectSubtrees cutoff x, isWellFormed s = true) :
    ∀ s ∈ collectSubtreesList cutoff cs, isWellFormed s = true := by
  induction cs with
  | nil => intro s hs; simp [collectSubtreesList] at hs
  | cons n ns ih =>
      intro s hs
      rw [collectSubtreesList, List.mem_append] at hs
      rw [wfList, Bool.and_eq_true] at hwf
      rcases hs with hs | hs
      · exact hall n (List.mem_cons_self n ns) hwf.1 s hs
      · exact ih hwf.2 (fun x hx => hall x (List.mem_cons_of_mem n hx)) s hs

theorem collect_wf (cutoff : ℚ) :
    ∀ t : CNode, isWellFormed t = true →
      ∀ s ∈ collectSubtrees cutoff t, isWellFormed s = true := by
  intro t
  induction t using CNode.strongInd with
  | h ht idx cs ih =>
      intro hwf s hs
      rw [collectSubtrees_mk] at hs
      by_cases htop : (ht.getD 0) ≤ cutoff
      · rw [if_pos htop] at hs
        rwa [List.mem_singleton.mp hs]
      · rw [if_neg htop] at hs
        by_cases hcs : cs.isEmpty
        · rw [if_neg (by simp [hcs])] at hs
          rwa [List.mem_singleton.mp hs]
        · rw [if_pos (by simp [hcs])] at hs
          have hwf' : wfList cs = true := by
            rw [isWellFormed, if_neg hcs] at hwf
            exact hwf
          exact collectList_wf cutoff cs hwf' ih s hs

theorem claim_C9 (labels : List String)
    (tok : String → List String × List String) (t : CNode) (c : Nat)
    (cutoff : ℚ) (N : Nat) (hwf : isWellFormed t = true)
    (hperm : List.Perm (leafIndices t) ((List.range N).map Int.ofNat))
    (hN : labels.length = N) :
    tnodeLeafCount (convertToD3 labels tok t c).1 = N
    ∧ List.Perm (((collectSubtrees cutoff t).map leafIndices).flatten)
        ((List.range N).map Int.ofNat)
    ∧ tnodeLeafCount (convertToD3WithCutoff labels tok t cutoff c).1 = N := by
  have hrange : ∀ i ∈ leafIndices t, 0 ≤ i ∧ i < (labels.length : Int) := by
    intro i hi
    have := hperm.mem_iff.mp hi
    obtain ⟨k, hk, rfl⟩ := List.mem_map.mp this
    have := List.mem_range.mp hk
    constructor
    · exact Int.ofNat_nonneg k
    · rw [hN]
      exact Int.ofNat_lt.mpr this
  have hlen : (leafIndices t).length = N := by
    rw [hperm.length_eq, List.length_map, List.length_range]
  refine ⟨by rw [convert_leafCount labels tok t hwf hrange c, hlen],
    by rw [collect_partition cutoff t]; exact hperm, ?_⟩
  rw [convertToD3WithCutoff]
  by_cases hmulti : 1 < (collectSubtrees cutoff t).length
  · rw [if_pos hmulti]
    dsimp only
    rw [tnodeLeafCount]
    have hne : ((convertList labels tok (collectSubtrees cutoff t) c).1.isEmpty)
        = false := by
      apply isEmpty_false_of_length_pos
      rw [convertList_len]
      omega
    rw [if_neg (by rw [hne]; exact Bool.false_ne_true)]
    rw [convertList_leafCount labels tok (collectSubtrees cutoff t)
      (fun s hs cx => convert_leafCount labels tok s
        (collect_wf cutoff t hwf s hs)
        (fun i hi => hrange i (by
          rw [← collect_partition cutoff t]
          exact List.mem_flatten.mpr
            ⟨leafIndices s, List.mem_map_of_mem _ hs, hi⟩)) cx) c]
    rw [leafIndicesList_eq_flatten, collect_partition cutoff t, hlen]
  · rw [if_neg hmulti]
    rw [convert_leafCount labels tok t hwf hrange c, hlen]

theorem claim_C9_witness :
    isWellFormed cutCexTree = true
    ∧ List.Perm (leafIndices cutCexTree) ((List.range 2).map Int.ofNat)
    ∧ (["a", "b"] : List String).length = 2
    ∧ tnodeLeafCount (convertToD3 ["a", "b"] tok0 cutCexTree 0).1 = 2
    ∧ List.Perm (((collectSubtrees (1/2) cutCexTree).map leafIndices).flatten)
        ((List.range 2).map Int.ofNat)
    ∧ tnodeLeafCount
        (convertToD3WithCutoff ["a", "b"] tok0 cutCexTree (1/2) 0).1 = 2 := by
  have hwf : isWellFormed cutCexTree = true := by
    simp [cutCexTree, isWellFormed, wfList]
  have hleaf : leafIndices cutCexTree = [0, 1] := by
    simp [cutCexTree, leafIndices, leafIndicesList]
  have hperm : List.Perm (leafIndices cutCexTree)
      ((List.range 2).map Int.ofNat) := by
    rw [hleaf, show (List.range 2).map Int.ofNat = [0, 1] from rfl]
  obtain ⟨h1, h2, h3⟩ :=
    claim_C9 ["a", "b"] tok0 cutCexTree 0 (1/2) 2 hwf hperm rfl
  exact ⟨hwf, hperm, rfl, h1, h2, h3⟩

/-! ## Worker message flow (cluster.worker.impl.ts lines 526-755) -/

/-- A message posted by the worker (`postMessage`): progress, terminal
    error, or terminal success with the exported tree. -/
inductive WMsg where
  | progress (message : String)
  | error (message : String)
  | success (data : TNode)

def WMsg.isError : WMsg → Bool
  | .error _ => true
  | _ => false

def WMsg.isSuccess : WMsg → Bool
  | .success _ => true
  | _ => false

/-- `text.split(/\n\n+/)` as a single pass: `acc` holds the current segment
    (reversed), `run` the pending newline run; a run of length ≥ 2 is a
    separator (the regex `+` is greedy, so maximal runs separate), shorter
    runs stay inside the segment. -/
def splitParasGo : List Char → List Char → List Char → List String
  | [], acc, run =>
      if 2 ≤ run.length then [String.mk acc.reverse, ""]
      else [String.mk (run ++ acc).reverse]
  | '\n' :: cs, acc, run => splitParasGo cs acc ('\n' :: run)
  | c :: cs, acc, run =>
      if 2 ≤ run.length then
        String.mk acc.reverse :: splitParasGo cs [c] []
      else splitParasGo cs (c :: (run ++ acc)) []

def splitParagraphs (text : String) : List String :=
  splitParasGo text.data [] []

/-- Paragraph-mode segmentation (worker line 541): split on blank lines and
    drop whitespace-only pieces. -/
def paragraphSegments (text : String) : List String :=
  (splitParagraphs text).filter (fun s => 0 < s.trim.length)

/-- The worker's message output from the segment list on (worker lines
    533-751): one leading progress message, then — with fewer than 2
    segments — exactly one terminal error and nothing else; otherwise the
    rest of the pipeline runs (vectorization, clustering, materialization —
    abstracted as `rest`, which also covers the external ml-hclust call). -/
def runFromSegments (rest : List String → List WMsg)
    (segments : List String) : List WMsg :=
  WMsg.progress "Tokenizing and cleaning text..." ::
    (if segments.length < 2 then
      [WMsg.error "Not enough data to cluster (need at least 2 segments/words). Try adding more text."]
    else rest segments)

/-- A full paragraph-mode run on input `text`. -/
def runParagraphMode (rest : List String → List WMsg) (text : String) :
    List WMsg :=
  runFromSegments rest (paragraphSegments text)

/-- Claim C10: whenever segmentation and filtering yield fewer than 2
    Units, the run posts exactly one error (whose message ends with the
    remediation hint "Try adding more text."), posts no success, and never
    invokes the vectorization/clustering stages (the output is the same for
    every continuation `rest`, so `rest` is not applied). -/
theorem claim_C10 (text : String) (rest : List String → List WMsg)
    (h : (paragraphSegments text).length < 2) :
    runParagraphMode rest text
      = [WMsg.progress "Tokenizing and cleaning text...",
         WMsg.error "Not enough data to cluster (need at least 2 segments/words). Try adding more text."]
    ∧ ((runParagraphMode rest text).filter (fun m => m.isError)).length = 1
    ∧ ((runParagraphMode rest text).filter (fun m => m.isSuccess)).length = 0
    := by
  have hrun : runParagraphMode rest text
      = [WMsg.progress "Tokenizing and cleaning text...",
         WMsg.error "Not enough data to cluster (need at least 2 segments/words). Try adding more text."] := by
    unfold runParagraphMode runFromSegments
    rw [if_pos h]
  refine ⟨hrun, ?_, ?_⟩ <;> rw [hrun] <;> rfl

theorem claim_C10_witness :
    (paragraphSegments "Hello world.").length < 2
    ∧ runParagraphMode (fun _ => []) "Hello world."
      = [WMsg.progress "Tokenizing and cleaning text...",
         WMsg.error "Not enough data to cluster (need at least 2 segments/words). Try adding more text."] :=
  ⟨by with_unfolding_all decide,
    (claim_C10 "Hello world." (fun _ => []) (by with_unfolding_all decide)).1⟩

end TinyTaxonomy
